import Mathlib

set_option maxRecDepth 100000

/-!
Verification of the symbolic Addition/Multiplication rewriting core
(`src/structure/operations/Addition.ts`, `src/structure/operations/Multiplication.ts`,
`src/structure/builder/ShorthandFunctions.ts`).

Expression trees are embedded shallowly: the TypeScript classes `Value`,
`Variable`, `Addition`, `Multiplication` become the constructors of an
inductive type; numeric values are modelled as integers.  The base class
`Function`, the leaf classes and the structural-equality hash map are not in
the analysed sources and are modelled from the specification where noted.
Recursive methods are embedded with an explicit fuel argument; running out of
fuel and the arity failure of the operator constructor are signalled through
an `Except` result.
-/

/-- An expression tree: a numeric constant (`Value`), a named variable
(`Variable`), or an n-ary operator node (`Addition`, `Multiplication`),
mirroring the class hierarchy of the source. -/
inductive Expr where
  | Value : Int → Expr
  | Variable : String → Expr
  | Addition : List Expr → Expr
  | Multiplication : List Expr → Expr
deriving Repr

mutual

/-- Structural (content) equality of expressions is decidable (spec §4.1):
same variant, same value/name for leaves, same element-wise-equal ordered
child lists for operator nodes of the same symbol. -/
def Expr.decEq : (a b : Expr) → Decidable (a = b)
  | .Value a, .Value b =>
      if h : a = b then isTrue (by rw [h])
      else isFalse (by intro hh; injection hh with h1; exact h h1)
  | .Value _, .Variable _ => isFalse (fun h => Expr.noConfusion h)
  | .Value _, .Addition _ => isFalse (fun h => Expr.noConfusion h)
  | .Value _, .Multiplication _ => isFalse (fun h => Expr.noConfusion h)
  | .Variable _, .Value _ => isFalse (fun h => Expr.noConfusion h)
  | .Variable a, .Variable b =>
      if h : a = b then isTrue (by rw [h])
      else isFalse (by intro hh; injection hh with h1; exact h h1)
  | .Variable _, .Addition _ => isFalse (fun h => Expr.noConfusion h)
  | .Variable _, .Multiplication _ => isFalse (fun h => Expr.noConfusion h)
  | .Addition _, .Value _ => isFalse (fun h => Expr.noConfusion h)
  | .Addition _, .Variable _ => isFalse (fun h => Expr.noConfusion h)
  | .Addition as, .Addition bs =>
      match Expr.decEqList as bs with
      | isTrue h => isTrue (by rw [h])
      | isFalse h => isFalse (by intro hh; injection hh with h1; exact h h1)
  | .Addition _, .Multiplication _ => isFalse (fun h => Expr.noConfusion h)
  | .Multiplication _, .Value _ => isFalse (fun h => Expr.noConfusion h)
  | .Multiplication _, .Variable _ => isFalse (fun h => Expr.noConfusion h)
  | .Multiplication _, .Addition _ => isFalse (fun h => Expr.noConfusion h)
  | .Multiplication as, .Multiplication bs =>
      match Expr.decEqList as bs with
      | isTrue h => isTrue (by rw [h])
      | isFalse h => isFalse (by intro hh; injection hh with h1; exact h h1)

/-- Decidable element-wise structural equality of child lists. -/
def Expr.decEqList : (as bs : List Expr) → Decidable (as = bs)
  | [], [] => isTrue rfl
  | [], _ :: _ => isFalse (fun h => List.noConfusion h)
  | _ :: _, [] => isFalse (fun h => List.noConfusion h)
  | a :: as, b :: bs =>
      match Expr.decEq a b, Expr.decEqList as bs with
      | isTrue h1, isTrue h2 => isTrue (by rw [h1, h2])
      | isTrue _, isFalse h2 => isFalse (by intro hh; injection hh with _ t; exact h2 t)
      | isFalse h1, _ => isFalse (by intro hh; injection hh with t _; exact h1 t)

end

instance : DecidableEq Expr := Expr.decEq

instance {ε α : Type} [DecidableEq ε] [DecidableEq α] : DecidableEq (Except ε α) :=
  fun a b =>
    match a, b with
    | .ok x, .ok y =>
        if h : x = y then isTrue (by rw [h]) else isFalse (by intro hh; cases hh; exact h rfl)
    | .error x, .error y =>
        if h : x = y then isTrue (by rw [h]) else isFalse (by intro hh; cases hh; exact h rfl)
    | .ok _, .error _ => isFalse (by intro hh; cases hh)
    | .error _, .ok _ => isFalse (by intro hh; cases hh)

/-- Modelled from the spec (§3, §6): known bindings are a mapping from
variable name to constant value, supplied by the caller. -/
def Knowns : Type := List (String × Int)

/-- Name lookup in the known bindings. -/
def lookupKnown : Knowns → String → Option Int
  | [], _ => none
  | (n, v) :: rest, m => if n = m then some v else lookupKnown rest m

/-- Failures of the embedded computation: `ArityError` models the
construction-time arity failure (spec §4.1, §7); `OutOfFuel` is the
embedding artifact of bounding recursion depth. -/
inductive SimError where
  | ArityError : SimError
  | OutOfFuel : SimError
deriving Repr, DecidableEq

/-- Modelled from the spec (§4.1, §7): the operator base constructor, not in
the analysed sources, validates `minArgs ≤ children.length ≤ maxArgs` and
fails with an ArityError otherwise.  `Addition` passes minArgs 2 and
maxArgs `MAX_ALLOWED_ARGS = 200` (source lines 19, 28). -/
def mkAddition (args : List Expr) : Except SimError Expr :=
  if 2 ≤ args.length ∧ args.length ≤ 200 then .ok (.Addition args)
  else .error .ArityError

/-- Modelled from the spec (§4.1, §7): the `Multiplication` constructor with
the same bounds, minArgs 2 and maxArgs 200 (source lines 19, 28). -/
def mkMultiplication (args : List Expr) : Except SimError Expr :=
  if 2 ≤ args.length ∧ args.length ≤ 200 then .ok (.Multiplication args)
  else .error .ArityError

mutual

/-- Modelled from the spec (§4.1): `hasUnknowns(knowns)` of the operator base
contract returns true iff some Variable reachable in the subtree is absent
from the known bindings. -/
def hasUnknowns : Expr → Knowns → Bool
  | .Value _, _ => false
  | .Variable n, k => (lookupKnown k n).isNone
  | .Addition args, k => hasUnknownsList args k
  | .Multiplication args, k => hasUnknownsList args k

/-- `hasUnknowns` over a child list. -/
def hasUnknownsList : List Expr → Knowns → Bool
  | [], _ => false
  | a :: rest, k => hasUnknowns a k || hasUnknownsList rest k

end

/-- The source reads `(expr as Value).value` with an unchecked TypeScript
cast (Addition.ts line 111, Multiplication.ts line 121).  For a `Value` node
this yields its numeric value; misuse on any other node would yield
`undefined`/`NaN` in JavaScript, which has no integer counterpart, so that
unreachable case is given the placeholder 0 here. -/
def castValue : Expr → Int
  | .Value v => v
  | _ => 0

/-- One step of the occurrence-count map update: structural equality keyed,
first-insertion order preserved (the hash map is consumed as an external
capability; spec §3 "Grouping map", §6). -/
def bumpCount : List (Expr × Nat) → Expr → List (Expr × Nat)
  | [], e => [(e, 1)]
  | (a, n) :: rest, e =>
      if a = e then (a, n + 1) :: rest else (a, n) :: bumpCount rest e

/-- Occurrence counts of a list of expressions under structural equality,
in first-occurrence order (Addition.ts lines 122-133). -/
def countOcc (l : List Expr) : List (Expr × Nat) :=
  l.foldl bumpCount []

/-- Coefficient-map update for like-term grouping over products: keyed by the
ordered factor sequence, accumulating coefficients (Addition.ts lines
173-180). -/
def bumpCoeff : List (List Expr × Int) → List Expr → Int → List (List Expr × Int)
  | [], key, v => [(key, v)]
  | (k0, v0) :: rest, key, v =>
      if k0 = key then (k0, v0 + v) :: rest
      else (k0, v0) :: bumpCoeff rest key v

/-- Emission phase of `groupLikeTerms` (Addition.ts lines 186-205): drop
zero-coefficient entries, elide coefficient 1, otherwise place the
coefficient before the factors; each emitted product goes through the
validating `Multiplication` constructor. -/
def gltEmit : List (List Expr × Int) → Except SimError (List Expr)
  | [] => .ok []
  | (key, v) :: rest =>
      if v = 0 then gltEmit rest
      else do
        let m ← if v = 1 then mkMultiplication key
                else mkMultiplication (.Value v :: key)
        let out ← gltEmit rest
        pure (m :: out)

mutual

/-- `Expression.simplify` dispatch.  Leaf behavior is modelled from the spec
(§3, §8 known-binding substitution): a `Value` simplifies to itself, a
`Variable` to its bound constant when known and to itself otherwise.
Operator nodes dispatch to the embedded method bodies. -/
def simplify : Nat → Expr → Knowns → Except SimError Expr
  | 0, _, _ => .error .OutOfFuel
  | _ + 1, .Value v, _ => .ok (.Value v)
  | _ + 1, .Variable n, k =>
      match lookupKnown k n with
      | some v => .ok (.Value v)
      | none => .ok (.Variable n)
  | f + 1, .Addition args, k => addSimplify f args k
  | f + 1, .Multiplication args, k => mulSimplify f args k

/-- Pre-simplification pass of `Addition.simplify` (Addition.ts lines
91-101): children that are themselves Additions are kept unsimplified,
every other child is simplified. -/
def addPrePass : Nat → List Expr → Knowns → Except SimError (List Expr)
  | 0, _, _ => .error .OutOfFuel
  | _ + 1, [], _ => .ok []
  | f + 1, a :: rest, k => do
      let a' ← match a with
        | .Addition inner => pure (Expr.Addition inner)
        | _ => simplify f a k
      let rest' ← addPrePass f rest k
      pure (a' :: rest')

/-- Pre-simplification pass of `Multiplication.simplify` (Multiplication.ts
lines 101-111): nested Multiplications are kept, other children are
simplified. -/
def mulPrePass : Nat → List Expr → Knowns → Except SimError (List Expr)
  | 0, _, _ => .error .OutOfFuel
  | _ + 1, [], _ => .ok []
  | f + 1, a :: rest, k => do
      let a' ← match a with
        | .Multiplication inner => pure (Expr.Multiplication inner)
        | _ => simplify f a k
      let rest' ← mulPrePass f rest k
      pure (a' :: rest')

/-- Full-numeric-evaluation loop of `Addition.simplify` (Addition.ts lines
108-112): re-simplify each child and add the value extracted by the
unchecked cast into the accumulator (seeded 0 at line 108). -/
def addFullEvalAcc : Nat → Int → List Expr → Knowns → Except SimError Int
  | 0, _, _, _ => .error .OutOfFuel
  | _ + 1, acc, [], _ => .ok acc
  | f + 1, acc, a :: rest, k => do
      let a' ← simplify f a k
      addFullEvalAcc f (acc + castValue a') rest k

/-- Full-numeric-evaluation loop of `Multiplication.simplify`
(Multiplication.ts lines 118-122): re-simplify each child and multiply the
extracted value into the accumulator.  The source seeds the accumulator
with 0, not 1 (line 118), which is kept faithfully here. -/
def mulFullEvalAcc : Nat → Int → List Expr → Knowns → Except SimError Int
  | 0, _, _, _ => .error .OutOfFuel
  | _ + 1, acc, [], _ => .ok acc
  | f + 1, acc, a :: rest, k => do
      let a' ← simplify f a k
      mulFullEvalAcc f (acc * castValue a') rest k

/-- `Addition.split` (Addition.ts lines 54-81): Constants are added to the
numeric accumulator, nested Additions are split recursively and merged,
every other child is simplified and appended to the symbolic residue. -/
def addSplit : Nat → List Expr → Knowns → Except SimError (Int × List Expr)
  | 0, _, _ => .error .OutOfFuel
  | _ + 1, [], _ => .ok (0, [])
  | f + 1, a :: rest, k =>
      match a with
      | .Value v => do
          let (n, es) ← addSplit f rest k
          pure (v + n, es)
      | .Addition inner => do
          let (n1, es1) ← addSplit f inner k
          let (n2, es2) ← addSplit f rest k
          pure (n1 + n2, es1 ++ es2)
      | a => do
          let a' ← simplify f a k
          let (n, es) ← addSplit f rest k
          pure (n, a' :: es)

/-- `Multiplication.split` (Multiplication.ts lines 65-92): Constants are
multiplied into the accumulator (seeded with the multiplicative identity 1
at line 66), nested Multiplications are split recursively and merged, every
other child is simplified and appended to the symbolic residue. -/
def mulSplit : Nat → List Expr → Knowns → Except SimError (Int × List Expr)
  | 0, _, _ => .error .OutOfFuel
  | _ + 1, [], _ => .ok (1, [])
  | f + 1, a :: rest, k =>
      match a with
      | .Value v => do
          let (p, es) ← mulSplit f rest k
          pure (v * p, es)
      | .Multiplication inner => do
          let (p1, es1) ← mulSplit f inner k
          let (p2, es2) ← mulSplit f rest k
          pure (p1 * p2, es1 ++ es2)
      | a => do
          let a' ← simplify f a k
          let (p, es) ← mulSplit f rest k
          pure (p, a' :: es)

/-- Grouped-argument construction of `Addition.simplify` (Addition.ts lines
135-147): an expression of count 1 is re-simplified, an expression of
count c > 1 becomes `Multiplication([Constant(c), e]).simplify(knowns)`. -/
def groupArgs : Nat → List (Expr × Nat) → Knowns → Except SimError (List Expr)
  | 0, _, _ => .error .OutOfFuel
  | _ + 1, [], _ => .ok []
  | f + 1, (e, c) :: rest, k => do
      let g ← if c = 1 then simplify f e k
              else do
                let m ← mkMultiplication [.Value (c : Int), e]
                simplify f m k
      let rest' ← groupArgs f rest k
      pure (g :: rest')

/-- Scanning phase of `Addition.groupLikeTerms` (Addition.ts lines 162-184):
Multiplication children are split into coefficient and factor sequence and
their coefficients accumulated in a map keyed by the factor sequence; other
children pass through into a side list. -/
def gltScan : Nat → List (List Expr × Int) → List Expr → List Expr → Knowns →
    Except SimError (List (List Expr × Int) × List Expr)
  | 0, _, _, _, _ => .error .OutOfFuel
  | _ + 1, g, o, [], _ => .ok (g, o)
  | f + 1, g, o, a :: rest, k =>
      match a with
      | .Multiplication margs => do
          let sp ← mulSplit f margs k
          gltScan f (bumpCoeff g sp.2 sp.1) o rest k
      | a => gltScan f g (o ++ [a]) rest k

/-- `Addition.groupLikeTerms` (Addition.ts lines 161-212): scan, emit, append
the side list and wrap the result in a new (validated) Addition. -/
def groupLikeTerms : Nat → List Expr → Knowns → Except SimError Expr
  | 0, _, _ => .error .OutOfFuel
  | f + 1, args, k => do
      let (g, o) ← gltScan f [] [] args k
      let out ← gltEmit g
      mkAddition (out ++ o)

/-- `Addition.simplify` (Addition.ts lines 90-159): pre-simplify children,
rebuild the node through the validating constructor, fully evaluate when no
unknowns remain, otherwise split, group occurrences, elide a zero numeric
total, and apply like-term grouping over products. -/
def addSimplify : Nat → List Expr → Knowns → Except SimError Expr
  | 0, _, _ => .error .OutOfFuel
  | f + 1, args, k => do
      let simplArgs ← addPrePass f args k
      let _ ← mkAddition simplArgs
      if !hasUnknownsList simplArgs k then do
        let sum ← addFullEvalAcc f 0 simplArgs k
        pure (.Value sum)
      else do
        let sp ← addSplit f simplArgs k
        let grouped ← groupArgs f (countOcc sp.2) k
        if grouped.length = 0 then
          pure (.Value sp.1)
        else do
          let grouped := if sp.1 ≠ 0 then grouped ++ [.Value sp.1] else grouped
          let _ ← mkAddition grouped
          groupLikeTerms f grouped k

/-- `Multiplication.simplify` (Multiplication.ts lines 100-151): pre-simplify
children, rebuild the node through the validating constructor, fully
evaluate when no unknowns remain (with the 0-seeded accumulator of the
source), otherwise split and rebuild: annihilate on numeric product 0,
return the bare constant on empty residue, return a bare single residue
element when the product is 1, otherwise append the constant. -/
def mulSimplify : Nat → List Expr → Knowns → Except SimError Expr
  | 0, _, _ => .error .OutOfFuel
  | f + 1, args, k => do
      let simplArgs ← mulPrePass f args k
      let _ ← mkMultiplication simplArgs
      if !hasUnknownsList simplArgs k then do
        let p ← mulFullEvalAcc f 0 simplArgs k
        pure (.Value p)
      else do
        let sp ← mulSplit f simplArgs k
        if sp.1 = 0 then
          pure (.Value 0)
        else
          match sp.2 with
          | [] => pure (.Value sp.1)
          | [e] =>
              if sp.1 = 1 then pure e
              else mkMultiplication [e, .Value sp.1]
          | es =>
              if sp.1 = 1 then mkMultiplication es
              else mkMultiplication (es ++ [.Value sp.1])

end

/-- Constructs one product term per factor index for the product rule
(Multiplication.ts lines 41-53): entry `j` of term `i` is the derivative of
factor `i` when `j = i` and otherwise `this.args[i]` — the source reads
`args[i]`, not `args[j]`, in the `j ≠ i` branch (line 48), kept faithfully
here. -/
def prodRuleTerms (pairs : List (Expr × Expr)) : List (List Expr) :=
  pairs.enum.map (fun p =>
    pairs.enum.map (fun q => if q.1 = p.1 then p.2.2 else p.2.1))

/-- Applies the validating `Multiplication` constructor to each operand list
(the `multiply` shorthand, ShorthandFunctions.ts lines 16-18). -/
def mkMultList : List (List Expr) → Except SimError (List Expr)
  | [] => .ok []
  | t :: rest => do
      let m ← mkMultiplication t
      let rest' ← mkMultList rest
      pure (m :: rest')

mutual

/-- `Expression.derivative` dispatch.  Leaf derivatives are modelled from the
spec (§1, §4: differentiation of constant and variable leaves): a constant
differentiates to 0, a variable to 1 with respect to itself and to 0
otherwise.  Operator nodes follow the source rules. -/
def derivative : Expr → String → Except SimError Expr
  | .Value _, _ => .ok (.Value 0)
  | .Variable n, v => .ok (.Value (if n = v then 1 else 0))
  | .Addition args, v => do
      let ds ← derivList args v
      mkAddition ds
  | .Multiplication args, v => do
      let pairs ← derivPairs args v
      let terms ← mkMultList (prodRuleTerms pairs)
      mkAddition terms

/-- Child-wise derivatives for the sum rule (Addition.ts lines 37-45). -/
def derivList : List Expr → String → Except SimError (List Expr)
  | [], _ => .ok []
  | a :: rest, v => do
      let d ← derivative a v
      let rest' ← derivList rest v
      pure (d :: rest')

/-- Each factor paired with its derivative, in order (Multiplication.ts
lines 38-56). -/
def derivPairs : List Expr → String → Except SimError (List (Expr × Expr))
  | [], _ => .ok []
  | a :: rest, v => do
      let d ← derivative a v
      let rest' ← derivPairs rest v
      pure ((a, d) :: rest')

end

mutual

/-- Reference denotation of an expression under a total assignment of
integer values to variable names: constants denote their value, sums and
products fold their children.  Used to state semantic equality. -/
def evalE : Expr → (String → Int) → Int
  | .Value v, _ => v
  | .Variable n, r => r n
  | .Addition args, r => evalSum args r
  | .Multiplication args, r => evalProd args r

/-- Denotation of a child list under addition. -/
def evalSum : List Expr → (String → Int) → Int
  | [], _ => 0
  | a :: rest, r => evalE a r + evalSum rest r

/-- Denotation of a child list under multiplication. -/
def evalProd : List Expr → (String → Int) → Int
  | [], _ => 1
  | a :: rest, r => evalE a r * evalProd rest r

end

/-- Specification-level recursion used to check `Addition.split`: the sum of
all Constant children, looking through arbitrarily nested Addition children,
ignoring every other child. -/
def flatConstSum : List Expr → Int
  | [] => 0
  | .Value v :: rest => v + flatConstSum rest
  | .Addition inner :: rest => flatConstSum inner + flatConstSum rest
  | _ :: rest => flatConstSum rest

/-- Whether the root node is a Multiplication. -/
def Expr.isMult : Expr → Bool
  | .Multiplication _ => true
  | _ => false

/-- Whether the root node is a Value (Constant). -/
def Expr.isValue : Expr → Bool
  | .Value _ => true
  | _ => false

/-! ## Theorems -/

/-- C1: the full-numeric-reduction property.  The Addition half holds at the
sampled input (`Addition([2,3]).simplify({}) = Constant(5)`), but the
Multiplication half fails: `Multiplication([2,3]).simplify({})` evaluates to
`Constant(0)`, not `Constant(6)`, because the source seeds the
full-evaluation accumulator with 0 (Multiplication.ts line 118). -/
theorem C1_numeric_reduction_at_failing_input :
    simplify 10 (.Addition [.Value 2, .Value 3]) [] = .ok (.Value 5) ∧
    simplify 10 (.Multiplication [.Value 2, .Value 3]) [] = .ok (.Value 0) := by
  decide

/-- C2: the generalized product rule.  At `Multiplication([x, y])` the code's
derivative with respect to x is `(1·x) + (y·0)` — factor `j ≠ i` is replaced
by factor `i` (Multiplication.ts line 48) instead of staying unchanged.
Under the assignment x = 5, y = 7 the code's tree denotes 5 while the tree
demanded by the claim, `(1·y) + (x·0)`, denotes 7, so the two are not even
semantically equal. -/
theorem C2_product_rule_at_failing_input :
    derivative (.Multiplication [.Variable "x", .Variable "y"]) "x"
      = .ok (.Addition [.Multiplication [.Value 1, .Variable "x"],
                        .Multiplication [.Variable "y", .Value 0]]) ∧
    evalE (.Addition [.Multiplication [.Value 1, .Variable "x"],
                      .Multiplication [.Variable "y", .Value 0]])
      (fun n => if n = "x" then 5 else 7) = 5 ∧
    evalE (.Addition [.Multiplication [.Value 1, .Variable "y"],
                      .Multiplication [.Variable "x", .Value 0]])
      (fun n => if n = "x" then 5 else 7) = 7 := by
  decide

/-- C3: additive identity elision.  `Addition([Variable("x"),
Constant(0)]).simplify({})` does not return a one-child Addition semantically
equal to x: after eliding the zero total, the single remaining term is
wrapped in `new Addition` with one child (Addition.ts line 157), which the
base constructor's arity minimum of 2 rejects, so the call fails with an
ArityError. -/
theorem C3_identity_elision_at_failing_input :
    simplify 30 (.Addition [.Variable "x", .Value 0]) [] = .error .ArityError := by
  decide

/-- C4: like-term collapse.  The grouping machinery does produce
`Multiplication([Constant(3), x]).simplify` for the three occurrences of x
(first conjunct, the coefficient ends up behind the factor), but
`Addition([x, x, x]).simplify({})` then wraps that single grouped term in a
one-child Addition (Addition.ts line 157), which fails the arity minimum,
so the whole call raises an ArityError instead of returning a value
semantically equal to `Multiplication([Constant(3), x])`. -/
theorem C4_like_term_collapse_at_failing_input :
    groupArgs 20 [(Expr.Variable "x", 3)] []
      = .ok [.Multiplication [.Variable "x", .Value 3]] ∧
    simplify 30 (.Addition [.Variable "x", .Variable "x", .Variable "x"]) []
      = .error .ArityError := by
  decide

/-- C5: idempotence of simplification.  With x known to be 3 and y unknown,
`Addition([Addition([x, x]), y]).simplify` succeeds and returns
`Addition([Constant(0), y])` (the two flattened occurrences of Constant(3)
are grouped into `Multiplication([Constant(2), Constant(3)]).simplify`,
which the 0-seeded full evaluation collapses to Constant(0)); re-simplifying
that result elides the zero, wraps the single remaining term y in a
one-child Addition and fails with an ArityError, so simplify is not
idempotent. -/
theorem C5_idempotence_at_failing_input :
    simplify 30 (.Addition [.Addition [.Variable "x", .Variable "x"], .Variable "y"])
      [("x", 3)] = .ok (.Addition [.Value 0, .Variable "y"]) ∧
    simplify 30 (.Addition [.Value 0, .Variable "y"]) [("x", 3)]
      = .error .ArityError := by
  decide

/-- C8: constructing an Addition or Multiplication with fewer than 2 or more
than 200 children fails with an ArityError and produces no node; with 2 to
200 children construction succeeds and returns the node itself. -/
theorem C8_arity (args : List Expr) :
    ((args.length < 2 ∨ 200 < args.length) →
      mkAddition args = .error .ArityError ∧
      mkMultiplication args = .error .ArityError) ∧
    ((2 ≤ args.length ∧ args.length ≤ 200) →
      mkAddition args = .ok (.Addition args) ∧
      mkMultiplication args = .ok (.Multiplication args)) := by
  constructor
  · intro h
    have hno : ¬(2 ≤ args.length ∧ args.length ≤ 200) := by omega
    simp [mkAddition, mkMultiplication, hno]
  · intro h
    simp [mkAddition, mkMultiplication, h.1, h.2]

/-- Witness for C8 at concrete inputs: 1 child fails, 2 children succeed,
201 children fail. -/
theorem C8_arity_witness :
    (mkAddition [.Value 0] = .error .ArityError ∧
      mkMultiplication [.Value 0] = .error .ArityError) ∧
    (mkAddition [.Value 0, .Value 1] = .ok (.Addition [.Value 0, .Value 1]) ∧
      mkMultiplication [.Value 0, .Value 1] = .ok (.Multiplication [.Value 0, .Value 1])) ∧
    (mkAddition (List.replicate 201 (.Value 0)) = .error .ArityError ∧
      mkMultiplication (List.replicate 201 (.Value 0)) = .error .ArityError) :=
  ⟨(C8_arity [.Value 0]).1 (by decide),
   (C8_arity [.Value 0, .Value 1]).2 (by decide),
   (C8_arity (List.replicate 201 (.Value 0))).1 (by decide)⟩

/-- C10 counterexample: the split residue is not free of Value and
same-operator nodes.  With x known to be 3, `Addition([x, y]).split` places
`Constant(3)` — the simplification result of the child x — in the symbolic
residue; and a child `Multiplication([1, Addition([x, y])])` simplifies to
the bare `Addition([x, y])`, which `Addition.split` also places in the
residue.  Symmetrically `Multiplication([x, y]).split` with x known puts
`Constant(3)` in its residue. -/
theorem C10_residue_counterexample :
    (addSplit 20 [.Variable "x", .Variable "y"] [("x", 3)]
        = .ok (0, [.Value 3, .Variable "y"]) ∧
      Expr.isValue (.Value 3) = true) ∧
    (addSplit 20 [.Multiplication [.Value 1, .Addition [.Variable "x", .Variable "y"]],
        .Variable "z"] []
        = .ok (0, [.Addition [.Variable "x", .Variable "y"], .Variable "z"])) ∧
    (mulSplit 20 [.Variable "x", .Variable "y"] [("x", 3)]
        = .ok (1, [.Value 3, .Variable "y"])) := by
  decide

/-! ### Helper lemmas about the Except monad and result shapes -/

@[simp] theorem exceptBind_ok {α β : Type} (a : α) (g : α → Except SimError β) :
    (Except.ok a >>= g) = g a := rfl

@[simp] theorem exceptBind_error {α β : Type} (e : SimError) (g : α → Except SimError β) :
    ((Except.error e : Except SimError α) >>= g) = Except.error e := rfl

@[simp] theorem exceptPure_def {α : Type} (a : α) :
    (pure a : Except SimError α) = Except.ok a := rfl

/-- C6: `Addition.split` correctness.  First conjunct: the sampled input
`Addition([Constant(2), Constant(3), Variable("x")]).split({})` yields
numeric total 5 and symbolic residue `[Variable("x")]`.  Second conjunct:
for every argument list, whenever split succeeds its numeric total is the
sum of all Constant children, looking through nested Addition children —
Constants feed the accumulator (initial 0), nested Additions are split
recursively and merged, and all other children only contribute to the
residue. -/
theorem C6_split_correctness :
    (addSplit 20 [.Value 2, .Value 3, .Variable "x"] [] = .ok (5, [.Variable "x"])) ∧
    (∀ (f : Nat) (args : List Expr) (k : Knowns) (pr : Int × List Expr),
      addSplit f args k = .ok pr → pr.1 = flatConstSum args) := by
  constructor
  · decide
  · intro f
    induction f with
    | zero => intro args k pr h; simp [addSplit] at h
    | succ f ih =>
      intro args k pr h
      match args with
      | [] =>
          simp only [addSplit] at h
          cases h
          simp [flatConstSum]
      | .Value v :: rest =>
          simp only [addSplit] at h
          cases hr : addSplit f rest k with
          | error e => rw [hr] at h; simp at h
          | ok pr' =>
              rw [hr] at h
              obtain ⟨n, es⟩ := pr'
              simp only [exceptBind_ok, exceptPure_def] at h
              cases h
              have hn := ih rest k (n, es) hr
              simp only [flatConstSum]
              omega
      | .Addition inner :: rest =>
          simp only [addSplit] at h
          cases h1 : addSplit f inner k with
          | error e => rw [h1] at h; simp at h
          | ok pr1 =>
              rw [h1] at h
              obtain ⟨n1, es1⟩ := pr1
              simp only [exceptBind_ok] at h
              cases h2 : addSplit f rest k with
              | error e => rw [h2] at h; simp at h
              | ok pr2 =>
                  rw [h2] at h
                  obtain ⟨n2, es2⟩ := pr2
                  simp only [exceptBind_ok, exceptPure_def] at h
                  cases h
                  have ha := ih inner k (n1, es1) h1
                  have hb := ih rest k (n2, es2) h2
                  simp only [flatConstSum]
                  omega
      | .Variable m :: rest =>
          simp only [addSplit] at h
          cases hs : simplify f (.Variable m) k with
          | error e => rw [hs] at h; simp at h
          | ok a' =>
              rw [hs] at h
              simp only [exceptBind_ok] at h
              cases hr : addSplit f rest k with
              | error e => rw [hr] at h; simp at h
              | ok pr' =>
                  rw [hr] at h
                  obtain ⟨n, es⟩ := pr'
                  simp only [exceptBind_ok, exceptPure_def] at h
                  cases h
                  have hn := ih rest k (n, es) hr
                  simp only [flatConstSum]
                  omega
      | .Multiplication margs :: rest =>
          simp only [addSplit] at h
          cases hs : simplify f (.Multiplication margs) k with
          | error e => rw [hs] at h; simp at h
          | ok a' =>
              rw [hs] at h
              simp only [exceptBind_ok] at h
              cases hr : addSplit f rest k with
              | error e => rw [hr] at h; simp at h
              | ok pr' =>
                  rw [hr] at h
                  obtain ⟨n, es⟩ := pr'
                  simp only [exceptBind_ok, exceptPure_def] at h
                  cases h
                  have hn := ih rest k (n, es) hr
                  simp only [flatConstSum]
                  omega

/-- Witness for C6 applying the general conjunct at the sampled input. -/
theorem C6_split_correctness_witness :
    addSplit 20 [.Value 2, .Value 3, .Variable "x"] [] = .ok (5, [.Variable "x"]) ∧
    (5 : Int) = flatConstSum [.Value 2, .Value 3, .Variable "x"] :=
  ⟨C6_split_correctness.1,
   by
    have h := C6_split_correctness.2 20 [.Value 2, .Value 3, .Variable "x"] []
      (5, [.Variable "x"]) C6_split_correctness.1
    simpa using h⟩

/-- Simplifying a Value returns that Value unchanged. -/
theorem simplify_value_shape {f : Nat} {v : Int} {k : Knowns} {r : Expr}
    (h : simplify f (.Value v) k = .ok r) : r = .Value v := by
  match f with
  | 0 => simp [simplify] at h
  | f + 1 =>
      simp only [simplify] at h
      injection h with h1
      exact h1.symm

/-- The pre-simplification pass of `Multiplication.simplify` preserves
Value children: a constant child of the input is still present in the
output list. -/
theorem mulPrePass_mem_value {v : Int} :
    ∀ (f : Nat) (args : List Expr) (k : Knowns) (l : List Expr),
      mulPrePass f args k = .ok l → Expr.Value v ∈ args → Expr.Value v ∈ l := by
  intro f
  induction f with
  | zero => intro args k l h _; simp [mulPrePass] at h
  | succ f ih =>
    intro args k l h hm
    match args with
    | [] => simp at hm
    | a :: rest =>
      rcases List.mem_cons.mp hm with hv | hv
      · cases hv
        simp only [mulPrePass] at h
        cases hs : simplify f (.Value v) k with
        | error e => rw [hs] at h; simp at h
        | ok a' =>
            rw [hs] at h
            simp only [exceptBind_ok] at h
            cases hr : mulPrePass f rest k with
            | error e => rw [hr] at h; simp at h
            | ok rest' =>
                rw [hr] at h
                simp only [exceptBind_ok, exceptPure_def] at h
                cases h
                have hva := simplify_value_shape hs
                simp [hva]
      · cases a with
        | Multiplication inner =>
            simp only [mulPrePass, exceptPure_def, exceptBind_ok] at h
            cases hr : mulPrePass f rest k with
            | error e => rw [hr] at h; simp at h
            | ok rest' =>
                rw [hr] at h
                simp only [exceptBind_ok, exceptPure_def] at h
                cases h
                exact List.mem_cons_of_mem _ (ih rest k rest' hr hv)
        | Value w =>
            simp only [mulPrePass] at h
            cases hs : simplify f (.Value w) k with
            | error e => rw [hs] at h; simp at h
            | ok a' =>
                rw [hs] at h
                simp only [exceptBind_ok] at h
                cases hr : mulPrePass f rest k with
                | error e => rw [hr] at h; simp at h
                | ok rest' =>
                    rw [hr] at h
                    simp only [exceptBind_ok, exceptPure_def] at h
                    cases h
                    exact List.mem_cons_of_mem _ (ih rest k rest' hr hv)
        | Variable m =>
            simp only [mulPrePass] at h
            cases hs : simplify f (.Variable m) k with
            | error e => rw [hs] at h; simp at h
            | ok a' =>
                rw [hs] at h
                simp only [exceptBind_ok] at h
                cases hr : mulPrePass f rest k with
                | error e => rw [hr] at h; simp at h
                | ok rest' =>
                    rw [hr] at h
                    simp only [exceptBind_ok, exceptPure_def] at h
                    cases h
                    exact List.mem_cons_of_mem _ (ih rest k rest' hr hv)
        | Addition inner =>
            simp only [mulPrePass] at h
            cases hs : simplify f (.Addition inner) k with
            | error e => rw [hs] at h; simp at h
            | ok a' =>
                rw [hs] at h
                simp only [exceptBind_ok] at h
                cases hr : mulPrePass f rest k with
                | error e => rw [hr] at h; simp at h
                | ok rest' =>
                    rw [hr] at h
                    simp only [exceptBind_ok, exceptPure_def] at h
                    cases h
                    exact List.mem_cons_of_mem _ (ih rest k rest' hr hv)

/-- If the argument list contains a literal Constant 0, a successful
`Multiplication.split` reports numeric product 0. -/
theorem mulSplit_fst_zero_of_mem :
    ∀ (f : Nat) (args : List Expr) (k : Knowns) (pr : Int × List Expr),
      mulSplit f args k = .ok pr → Expr.Value 0 ∈ args → pr.1 = 0 := by
  intro f
  induction f with
  | zero => intro args k pr h _; simp [mulSplit] at h
  | succ f ih =>
    intro args k pr h hm
    match args with
    | [] => simp at hm
    | a :: rest =>
      cases a with
      | Value w =>
          simp only [mulSplit] at h
          cases hr : mulSplit f rest k with
          | error e => rw [hr] at h; simp at h
          | ok pr' =>
              rw [hr] at h
              obtain ⟨p, es⟩ := pr'
              simp only [exceptBind_ok, exceptPure_def] at h
              cases h
              rcases List.mem_cons.mp hm with hv | hv
              · injection hv with hw
                simp [← hw]
              · have := ih rest k (p, es) hr hv
                simp at this
                simp [this]
      | Multiplication inner =>
          simp only [mulSplit] at h
          cases h1 : mulSplit f inner k with
          | error e => rw [h1] at h; simp at h
          | ok pr1 =>
              rw [h1] at h
              obtain ⟨p1, es1⟩ := pr1
              simp only [exceptBind_ok] at h
              cases h2 : mulSplit f rest k with
              | error e => rw [h2] at h; simp at h
              | ok pr2 =>
                  rw [h2] at h
                  obtain ⟨p2, es2⟩ := pr2
                  simp only [exceptBind_ok, exceptPure_def] at h
                  cases h
                  rcases List.mem_cons.mp hm with hv | hv
                  · exact absurd hv (by simp)
                  · have := ih rest k (p2, es2) h2 hv
                    simp at this
                    simp [this]
      | Variable m =>
          simp only [mulSplit] at h
          cases hs : simplify f (.Variable m) k with
          | error e => rw [hs] at h; simp at h
          | ok a' =>
              rw [hs] at h
              simp only [exceptBind_ok] at h
              cases hr : mulSplit f rest k with
              | error e => rw [hr] at h; simp at h
              | ok pr' =>
                  rw [hr] at h
                  obtain ⟨p, es⟩ := pr'
                  simp only [exceptBind_ok, exceptPure_def] at h
                  cases h
                  rcases List.mem_cons.mp hm with hv | hv
                  · exact absurd hv (by simp)
                  · have := ih rest k (p, es) hr hv
                    simp at this
                    simp [this]
      | Addition inner =>
          simp only [mulSplit] at h
          cases hs : simplify f (.Addition inner) k with
          | error e => rw [hs] at h; simp at h
          | ok a' =>
              rw [hs] at h
              simp only [exceptBind_ok] at h
              cases hr : mulSplit f rest k with
              | error e => rw [hr] at h; simp at h
              | ok pr' =>
                  rw [hr] at h
                  obtain ⟨p, es⟩ := pr'
                  simp only [exceptBind_ok, exceptPure_def] at h
                  cases h
                  rcases List.mem_cons.mp hm with hv | hv
                  · exact absurd hv (by simp)
                  · have := ih rest k (p, es) hr hv
                    simp at this
                    simp [this]

/-- The 0-seeded full-evaluation loop of `Multiplication.simplify` can only
produce 0. -/
theorem mulFullEvalAcc_zero :
    ∀ (f : Nat) (args : List Expr) (k : Knowns) (p : Int),
      mulFullEvalAcc f 0 args k = .ok p → p = 0 := by
  intro f
  induction f with
  | zero => intro args k p h; simp [mulFullEvalAcc] at h
  | succ f ih =>
    intro args k p h
    match args with
    | [] =>
        simp only [mulFullEvalAcc] at h
        injection h with h1
        exact h1.symm
    | a :: rest =>
        simp only [mulFullEvalAcc] at h
        cases hs : simplify f a k with
        | error e => rw [hs] at h; simp at h
        | ok a' =>
            rw [hs] at h
            simp only [exceptBind_ok, zero_mul] at h
            exact ih rest k p h

/-- C7: multiplicative annihilation.  For every expression x and every
knowns mapping, whenever `Multiplication([x, Constant(0)]).simplify(knowns)`
returns a result at all, that result is `Constant(0)`: in the
full-evaluation branch the 0-seeded accumulator forces 0, and otherwise the
split numeric product is 0 (the literal 0 factor) and the short circuit of
Multiplication.ts lines 130-132 returns Constant(0) regardless of the
symbolic residue. -/
theorem C7_multiplicative_annihilation (f : Nat) (x : Expr) (k : Knowns) (r : Expr)
    (h : simplify f (.Multiplication [x, .Value 0]) k = .ok r) : r = .Value 0 := by
  match f with
  | 0 => simp [simplify] at h
  | f + 1 =>
    simp only [simplify] at h
    match f, h with
    | g + 1, h => ?_
    | 0, h => simp [mulSimplify] at h
    simp only [mulSimplify] at h
    cases hp : mulPrePass g [x, .Value 0] k with
    | error e => rw [hp] at h; simp at h
    | ok simplArgs =>
      rw [hp] at h
      simp only [exceptBind_ok] at h
      have hmem : Expr.Value 0 ∈ simplArgs :=
        mulPrePass_mem_value g [x, .Value 0] k simplArgs hp (by simp)
      cases hmk : mkMultiplication simplArgs with
      | error e => rw [hmk] at h; simp at h
      | ok node =>
        rw [hmk] at h
        simp only [exceptBind_ok] at h
        cases hB : hasUnknownsList simplArgs k with
        | false =>
            rw [hB] at h
            simp only [Bool.not_false, if_true] at h
            cases he : mulFullEvalAcc g 0 simplArgs k with
            | error e => rw [he] at h; simp at h
            | ok p =>
                rw [he] at h
                simp only [exceptBind_ok, exceptPure_def] at h
                injection h with h1
                rw [← h1, mulFullEvalAcc_zero g simplArgs k p he]
        | true =>
            rw [hB] at h
            simp only [Bool.not_true, Bool.false_eq_true, if_false] at h
            cases hs : mulSplit g simplArgs k with
            | error e => rw [hs] at h; simp at h
            | ok sp =>
                rw [hs] at h
                simp only [exceptBind_ok] at h
                have h0 : sp.1 = 0 := mulSplit_fst_zero_of_mem g simplArgs k sp hs hmem
                rw [if_pos h0] at h
                simp only [exceptPure_def] at h
                injection h with h1
                exact h1.symm

/-- Witness for C7 at the spec's sampled input, x unknown. -/
theorem C7_multiplicative_annihilation_witness :
    simplify 10 (.Multiplication [.Variable "x", .Value 0]) [] = .ok (.Value 0) ∧
    Expr.Value 0 = Expr.Value 0 :=
  ⟨by decide, C7_multiplicative_annihilation 10 (.Variable "x") [] (.Value 0) (by decide)⟩

/-- Simplifying a Variable yields a Value (when bound) or the Variable
itself, never a Multiplication. -/
theorem simplify_variable_shape {f : Nat} {n : String} {k : Knowns} {r : Expr}
    (h : simplify f (.Variable n) k = .ok r) : r.isMult = false := by
  match f with
  | 0 => simp [simplify] at h
  | f + 1 =>
      simp only [simplify] at h
      cases hl : lookupKnown k n with
      | none => rw [hl] at h; injection h with h1; rw [← h1]; rfl
      | some v => rw [hl] at h; injection h with h1; rw [← h1]; rfl

/-- A successful Addition construction returns an Addition node carrying
exactly the argument list. -/
theorem mkAddition_ok_shape {l : List Expr} {r : Expr}
    (h : mkAddition l = .ok r) : r = .Addition l := by
  unfold mkAddition at h
  split at h
  · injection h with h1; exact h1.symm
  · simp at h

/-- `groupLikeTerms` always returns an Addition node when it succeeds. -/
theorem groupLikeTerms_not_mult {f : Nat} {args : List Expr} {k : Knowns} {r : Expr}
    (h : groupLikeTerms f args k = .ok r) : r.isMult = false := by
  match f with
  | 0 => simp [groupLikeTerms] at h
  | f + 1 =>
      simp only [groupLikeTerms] at h
      cases hs : gltScan f [] [] args k with
      | error e => rw [hs] at h; simp at h
      | ok go =>
          rw [hs] at h
          obtain ⟨g, o⟩ := go
          simp only [exceptBind_ok] at h
          cases he : gltEmit g with
          | error e => rw [he] at h; simp at h
          | ok out =>
              rw [he] at h
              simp only [exceptBind_ok] at h
              rw [mkAddition_ok_shape h]
              rfl

/-- `Addition.simplify` returns a Value or an Addition when it succeeds,
never a Multiplication. -/
theorem addSimplify_not_mult {f : Nat} {args : List Expr} {k : Knowns} {r : Expr}
    (h : addSimplify f args k = .ok r) : r.isMult = false := by
  match f with
  | 0 => simp [addSimplify] at h
  | f + 1 =>
      simp only [addSimplify] at h
      cases hp : addPrePass f args k with
      | error e => rw [hp] at h; simp at h
      | ok simplArgs =>
          rw [hp] at h
          simp only [exceptBind_ok] at h
          cases hmk : mkAddition simplArgs with
          | error e => rw [hmk] at h; simp at h
          | ok node =>
              rw [hmk] at h
              simp only [exceptBind_ok] at h
              cases hB : hasUnknownsList simplArgs k with
              | false =>
                  rw [hB] at h
                  simp only [Bool.not_false, if_true] at h
                  cases he : addFullEvalAcc f 0 simplArgs k with
                  | error e => rw [he] at h; simp at h
                  | ok s =>
                      rw [he] at h
                      simp only [exceptBind_ok, exceptPure_def] at h
                      injection h with h1
                      rw [← h1]; rfl
              | true =>
                  rw [hB] at h
                  simp only [Bool.not_true, Bool.false_eq_true, if_false] at h
                  cases hs : addSplit f simplArgs k with
                  | error e => rw [hs] at h; simp at h
                  | ok sp =>
                      rw [hs] at h
                      simp only [exceptBind_ok] at h
                      cases hg : groupArgs f (countOcc sp.2) k with
                      | error e => rw [hg] at h; simp at h
                      | ok grouped =>
                          rw [hg] at h
                          simp only [exceptBind_ok] at h
                          by_cases hlen : grouped.length = 0
                          · rw [if_pos hlen] at h
                            simp only [exceptPure_def] at h
                            injection h with h1
                            rw [← h1]; rfl
                          · rw [if_neg hlen] at h
                            by_cases hz : sp.1 ≠ 0
                            · rw [if_pos hz] at h
                              cases hmk2 : mkAddition (grouped ++ [.Value sp.1]) with
                              | error e => rw [hmk2] at h; simp at h
                              | ok node2 =>
                                  rw [hmk2] at h
                                  simp only [exceptBind_ok] at h
                                  exact groupLikeTerms_not_mult h
                            · rw [if_neg hz] at h
                              cases hmk2 : mkAddition grouped with
                              | error e => rw [hmk2] at h; simp at h
                              | ok node2 =>
                                  rw [hmk2] at h
                                  simp only [exceptBind_ok] at h
                                  exact groupLikeTerms_not_mult h

/-- Simplifying any non-Multiplication expression never yields a
Multiplication node at the root. -/
theorem simplify_not_mult {f : Nat} {e : Expr} {k : Knowns} {r : Expr}
    (h : simplify f e k = .ok r) (he : e.isMult = false) : r.isMult = false := by
  match f with
  | 0 => simp [simplify] at h
  | f + 1 =>
      cases e with
      | Value v => rw [simplify_value_shape h]; rfl
      | Variable n => exact simplify_variable_shape h
      | Addition args =>
          simp only [simplify] at h
          exact addSimplify_not_mult h
      | Multiplication args => simp [Expr.isMult] at he

/-- C10 amended: the residue of `Multiplication.split` never contains a
Multiplication node at its top level, since nested Multiplications are
flattened and every other non-Constant child is replaced by its
simplification result, which is never a Multiplication (a Variable
simplifies to a Variable or a Value, and `Addition.simplify` returns a
Value or an Addition). -/
theorem C10_mul_residue_no_mult :
    ∀ (f : Nat) (args : List Expr) (k : Knowns) (pr : Int × List Expr),
      mulSplit f args k = .ok pr → ∀ e ∈ pr.2, e.isMult = false := by
  intro f
  induction f with
  | zero => intro args k pr h; simp [mulSplit] at h
  | succ f ih =>
    intro args k pr h
    match args with
    | [] =>
        simp only [mulSplit] at h
        cases h
        intro e he
        simp at he
    | .Value v :: rest =>
        simp only [mulSplit] at h
        cases hr : mulSplit f rest k with
        | error e => rw [hr] at h; simp at h
        | ok pr' =>
            rw [hr] at h
            obtain ⟨p, es⟩ := pr'
            simp only [exceptBind_ok, exceptPure_def] at h
            cases h
            intro e he
            exact ih rest k (p, es) hr e he
    | .Multiplication inner :: rest =>
        simp only [mulSplit] at h
        cases h1 : mulSplit f inner k with
        | error e => rw [h1] at h; simp at h
        | ok pr1 =>
            rw [h1] at h
            obtain ⟨p1, es1⟩ := pr1
            simp only [exceptBind_ok] at h
            cases h2 : mulSplit f rest k with
            | error e => rw [h2] at h; simp at h
            | ok pr2 =>
                rw [h2] at h
                obtain ⟨p2, es2⟩ := pr2
                simp only [exceptBind_ok, exceptPure_def] at h
                cases h
                intro e he
                rcases List.mem_append.mp he with hv | hv
                · exact ih inner k (p1, es1) h1 e hv
                · exact ih rest k (p2, es2) h2 e hv
    | .Variable m :: rest =>
        simp only [mulSplit] at h
        cases hs : simplify f (.Variable m) k with
        | error e => rw [hs] at h; simp at h
        | ok a' =>
            rw [hs] at h
            simp only [exceptBind_ok] at h
            cases hr : mulSplit f rest k with
            | error e => rw [hr] at h; simp at h
            | ok pr' =>
                rw [hr] at h
                obtain ⟨p, es⟩ := pr'
                simp only [exceptBind_ok, exceptPure_def] at h
                cases h
                intro e he
                rcases List.mem_cons.mp he with hv | hv
                · rw [hv]; exact simplify_not_mult hs rfl
                · exact ih rest k (p, es) hr e hv
    | .Addition inner :: rest =>
        simp only [mulSplit] at h
        cases hs : simplify f (.Addition inner) k with
        | error e => rw [hs] at h; simp at h
        | ok a' =>
            rw [hs] at h
            simp only [exceptBind_ok] at h
            cases hr : mulSplit f rest k with
            | error e => rw [hr] at h; simp at h
            | ok pr' =>
                rw [hr] at h
                obtain ⟨p, es⟩ := pr'
                simp only [exceptBind_ok, exceptPure_def] at h
                cases h
                intro e he
                rcases List.mem_cons.mp he with hv | hv
                · rw [hv]; exact simplify_not_mult hs rfl
                · exact ih rest k (p, es) hr e hv

/-- Witness for the amended C10 invariant at a concrete split. -/
theorem C10_mul_residue_no_mult_witness :
    Expr.isMult (.Variable "y") = false :=
  C10_mul_residue_no_mult 20 [.Variable "x", .Variable "y"] []
    (1, [.Variable "x", .Variable "y"]) (by decide) (.Variable "y") (by decide)
